import Mathlib

/-!
Verification development for the `cryptofun` cryptographic library.

The Rust sources are shallowly embedded: arbitrary-precision unsigned
integers (`num_bigint::BigUint`) become `Nat`, signed ones (`BigInt`)
become `Int`, fallible or panicking operations return `Option`, and
randomness is made explicit by passing the values the OS generator
would have produced as parameters (draw streams / lists).

Loops whose termination is value-dependent are written with an explicit
fuel argument chosen at each call site to dominate the number of
iterations the Rust loop performs; the fuel-exhaustion branch mirrors
the state the loop would be left in and is proved or checked unreachable
wherever a claim depends on it.
-/

namespace Cryptofun

/-! ## Embedding of `src/utils/primes.rs` -/

/-- `BigUint::bits()`: 0 for 0, otherwise one more than the bit length of
`n / 2`.  Fuel-based structural recursion; `n` itself dominates the number
of halvings. -/
def bitsOfF : Nat → Nat → Nat
  | 0, _ => 0
  | fuel + 1, n => if n = 0 then 0 else bitsOfF fuel (n / 2) + 1

/-- Number of bits of a natural number, as `BigUint::bits()` returns it. -/
def bitsOf (n : Nat) : Nat := bitsOfF n n

/-- The `while mn.1 != 0` loop shared by `modular_inverse` and
`modular_inverse_int` (`primes.rs` lines 84-90 and 110-116): extended
Euclid on the pair `mn`, keeping the Bezout coefficients `xy`.
`mn` components stay non-negative in every call made by the library, so
they are carried as `Nat`; the coefficients are signed.
The first argument is fuel; `mn.1` strictly decreases each iteration, so
any fuel `≥ m1` makes the exhaustion branch unreachable. -/
def eeLoop : Nat → Nat → Nat → Int → Int → Nat × Int
  | 0, m0, _, x0, _ => (m0, x0)
  | fuel + 1, m0, m1, x0, x1 =>
    if m1 = 0 then (m0, x0)
    else eeLoop fuel m1 (m0 % m1) x1 (x0 - (↑(m0 / m1)) * x1)

/-- The `while xy.0 < 0 { xy.0 += modulus }` normalisation loop of
`modular_inverse` (`primes.rs` lines 92-94).  Fuel-based: each step adds
`m ≥ 1`, so fuel `natAbs x + 1` suffices.  (For `m = 0` the Rust loop
would not terminate on negative input; no claim calls it with `m = 0`.) -/
def normLoop : Nat → Nat → Int → Int
  | 0, _, x => x
  | fuel + 1, m, x => if x < 0 then normLoop fuel m (x + m) else x

/-- `primes::modular_inverse(a, modulus)`: extended Euclid on
`mn = (modulus, a)`, `xy = (0, 1)`, then add `modulus` while negative and
convert back to an unsigned integer. -/
def modular_inverse (a m : Nat) : Nat :=
  let r := eeLoop a m a 0 1
  (normLoop (r.2.natAbs + 1) m r.2).toNat

/-- `primes::modular_inverse_int(a, modulus)`: same loops over signed big
integers.  Every call site reached by the claims passes non-negative
arguments, on which the signed loop coincides with `eeLoop`. -/
def modular_inverse_int (a m : Int) : Int :=
  let r := eeLoop a.toNat m.toNat a.toNat 0 1
  normLoop (r.2.natAbs + 1) m.toNat r.2

/-- `BigUint::modpow(base, exp, modulus)`: square-and-multiply, structural
on fuel.  The exponent halves each step, so fuel `e` dominates. -/
def powModF : Nat → Nat → Nat → Nat → Nat
  | 0, _, _, m => 1 % m
  | fuel + 1, b, e, m =>
    if e = 0 then 1 % m
    else
      let h := powModF fuel (b * b % m) (e / 2) m
      if e % 2 = 1 then h * b % m else h

/-- Modular exponentiation `b ^ e mod m` as `BigUint::modpow` computes it. -/
def powMod (b e m : Nat) : Nat := powModF e b e m

/-- `primes::generate_random_biguint(generator, bitlength)`
(`primes.rs` lines 133-139): draw `r` with `bitlength - 1` random bits,
shift left by one, xor in the low bit.  `r` is the drawn value. -/
def generate_random_biguint (r : Nat) : Nat := (r <<< 1) ^^^ 1

/-- Floor square root (the number of positive `k ≤ c` with `k * k ≤ c`),
used to model the `(cast as f64).sqrt()` bound of `is_small_prime`;
kernel-computable, unlike `Nat.sqrt`. -/
def floorSqrt (c : Nat) : Nat :=
  (List.range (c + 1)).countP fun k => 0 < k ∧ k * k ≤ c

/-- The trial-division loop of `primes::is_small_prime`
(`primes.rs` lines 170-190).  The source computes the bound as
`(cast as f64).sqrt()` truncated to `u64`; on the word-sized candidates
the claims touch this equals the floor square root.  Note the loop range
`2..sqrt` excludes the bound itself, exactly as in the source. -/
def is_small_prime (c : Nat) : Bool :=
  if c < 2 then false
  else if c = 2 then true
  else (List.range' 2 (floorSqrt c - 2)).all fun i => c % i != 0

/-- `primes::fermat_little(candidate)` with the random base made explicit:
`base ^ (candidate - 1) mod candidate == 1`. -/
def fermat_little (c base : Nat) : Bool := powMod base (c - 1) c == 1

/-- The `while num.is_even()` loop of `primes::greatest_2_divisor`
(`primes.rs` lines 261-271), counting in `s`.  Fuel dominates the number
of halvings of `candidate - 1`. -/
def g2dLoop : Nat → Nat → Nat → Nat × Nat
  | 0, s, num => (s, num)
  | fuel + 1, s, num =>
    if num % 2 = 0 then g2dLoop fuel (s + 1) (num / 2) else (s, num)

/-- `primes::greatest_2_divisor(num)`: write `num - 1 = 2 ^ s * d` with
`d` odd (for odd `num`). -/
def greatest_2_divisor (num : Nat) : Nat × Nat := g2dLoop num 0 (num - 1)

/-- The inner witness loop of `primes::miller_rabin`
(`primes.rs` lines 237-245) together with the `return false` that follows
it (line 247).  First argument is the candidate, second the remaining
iteration count `s`, third the current `y`.  In the source, `y == 1`
returns `false`, `y == candidate - 1` breaks out of the loop — and the
statement after the loop is `return false`, so the break also yields
`false`; loop completion falls through to the same `return false`. -/
def mrInnerLoop (c : Nat) : Nat → Nat → Bool
  | 0, _ => false
  | s + 1, y =>
    let y2 := powMod y 2 c
    if y2 = 1 then false
    else if y2 = c - 1 then false
    else mrInnerLoop c s y2

/-- The outer basis loop of `primes::miller_rabin`
(`primes.rs` lines 230-249), with the randomly drawn bases made explicit
as a list (one entry per iteration, each drawn from
`[2, candidate - 2)`). -/
def mrRounds (c d s : Nat) : List Nat → Bool
  | [] => true
  | basis :: rest =>
    let y := powMod basis d c
    if y = 1 ∨ y = c - 1 then mrRounds c d s rest
    else mrInnerLoop c s y

/-- `primes::miller_rabin(candidate, iterations)` with the drawn bases
made explicit; the list length plays the role of `iterations`. -/
def miller_rabin (c : Nat) (bases : List Nat) : Bool :=
  let sd := greatest_2_divisor c
  mrRounds c sd.2 sd.1 bases

/-- `primes::is_large_prime(candidate)` (`primes.rs` lines 151-161) with
the Fermat base and the Miller-Rabin bases made explicit. -/
def is_large_prime (c fbase : Nat) (mrbases : List Nat) : Bool :=
  fermat_little c fbase && miller_rabin c mrbases

/-- One random tape entry consumed by an iteration of `primes::generate`:
the `gen_biguint(bitlength - 1)` draw, the Fermat base, and the three
Miller-Rabin bases. -/
structure GenDraw where
  r : Nat
  fbase : Nat
  mrbases : List Nat
deriving DecidableEq

/-- `primes::generate(bitlength)` (`primes.rs` lines 20-34) run on an
explicit finite random tape: each loop iteration consumes one `GenDraw`;
the first candidate accepted by the primality check is returned, `none`
if the tape runs out first (the Rust loop would keep drawing). -/
def generate (bitlength : Nat) : List GenDraw → Option Nat
  | [] => none
  | dr :: rest =>
    let candidate := generate_random_biguint dr.r
    if (bitlength < 25 && is_small_prime candidate) ||
       (25 ≤ bitlength && is_large_prime candidate dr.fbase dr.mrbases) then
      some candidate
    else generate bitlength rest

/-! ## Embedding of `src/encryption/rsa.rs` -/

/-- The fields of the `RSA` struct (`rsa.rs` lines 15-29) that the
embedded operations read or write.  `hash_algorithm` is stored but unused
by the embedded operations and is omitted. -/
structure RSAKey where
  n : Nat
  e : Nat
  d : Nat
  p : Nat
  q : Nat
  dp : Nat
  dq : Nat
  qp : Nat
  v_i : Nat
  v_f : Nat
  use_crt : Bool
  size_n : Nat
deriving DecidableEq

/-- The randomness one call of `RSA::use_private_key` consumes: the
successive `gen_biguint(size_n - 1)` draws of `prepare_blinding`
(indexed by the loop count), and the two 28-byte `fill_bytes` draws for
exponent blinding, read as little-endian integers. -/
structure PrivRand where
  vfDraws : Nat → Nat
  rA : Nat
  rB : Nat

/-- The `while self.v_i != one` draw loop of `RSA::prepare_blinding`
(`rsa.rs` lines 235-244).  Arguments: fuel, `count`, current `v_i`,
current `v_f`.  `count == 10` panics (`none`).  Fuel 11 dominates, since
`count` starts at 0 and grows by one per iteration. -/
def vfLoop (n : Nat) (draws : Nat → Nat) : Nat → Nat → Nat → Nat → Option (Nat × Nat)
  | 0, _, vi, vf => some (vi, vf)
  | fuel + 1, count, vi, vf =>
    if vi ≠ 1 then
      if count = 10 then none
      else vfLoop n draws fuel (count + 1) (Nat.gcd (draws count) n) (draws count)
    else some (vi, vf)

/-- `RSA::prepare_blinding` (`rsa.rs` lines 225-249): square the pair
mod `n` when `v_f ≠ 0`, otherwise draw a fresh `v_f` coprime to `n`
(at most 10 draws, then panic) and set `v_i = (v_f⁻¹ mod n) ^ e mod n`. -/
def prepare_blinding (k : RSAKey) (draws : Nat → Nat) : Option RSAKey :=
  if k.v_f ≠ 0 then
    some { k with v_i := k.v_i * k.v_i % k.n, v_f := k.v_f * k.v_f % k.n }
  else
    match vfLoop k.n draws 11 0 k.v_i k.v_f with
    | none => none
    | some r =>
      some { k with v_f := r.2,
                    v_i := powMod (modular_inverse r.2 k.n) k.e k.n }

/-- The CRT recombination of `RSA::use_private_key`
(`rsa.rs` lines 287-298): `t1 = t ^ dp mod p`, `t2 = t ^ dq mod q`,
then `t = ((t1 - t2) * qp mod p) * q + t2`.  The subtraction `t1 - t2`
is performed on `BigUint`, which panics when `t1 < t2`; the panic is
modelled as `none`. -/
def crtRecombine (p q qp dp dq t : Nat) : Option Nat :=
  let t1 := powMod t dp p
  let t2 := powMod t dq q
  if t1 < t2 then none
  else
    let td := t1 - t2
    some ((td * qp % p) * q + t2)

/-- `RSA::use_private_key` (`rsa.rs` lines 260-308): blinding update,
input blinding, exponent blinding of `dp`/`dq` (written back into the
key), CRT or plain exponentiation, unblinding.  Returns the output and
the mutated key; `none` models a panic (blinding failure or `BigUint`
underflow in the CRT recombination). -/
def use_private_key (k : RSAKey) (input : Nat) (rnd : PrivRand) :
    Option (Nat × RSAKey) :=
  match prepare_blinding k rnd.vfDraws with
  | none => none
  | some k1 =>
    let t := input * k1.v_i % k1.n
    if k1.use_crt then
      let p1 := k1.p - 1
      let q1 := k1.q - 1
      let k2 := { k1 with dp := p1 * rnd.rA + k1.dp, dq := q1 * rnd.rB + k1.dq }
      match crtRecombine k2.p k2.q k2.qp k2.dp k2.dq t with
      | none => none
      | some tc => some (tc * k2.v_f % k2.n, k2)
    else
      some (powMod t k1.d k1.n * k1.v_f % k1.n, k1)

/-- `RSA::use_public_key` (`rsa.rs` lines 315-317). -/
def use_public_key (k : RSAKey) (input : Nat) : Nat := powMod input k.e k.n

/-- `BigUint::from_bytes_le`. -/
def fromBytesLE : List Nat → Nat
  | [] => 0
  | b :: rest => b + 256 * fromBytesLE rest

/-- `BigUint::to_bytes_le` (minimal little-endian bytes; `vec![0]` for
zero), fuel-based with fuel `x`. -/
def toBytesLEF : Nat → Nat → List Nat
  | 0, x => [x]
  | fuel + 1, x => if x < 256 then [x] else x % 256 :: toBytesLEF fuel (x / 256)

/-- `BigUint::to_bytes_le`. -/
def toBytesLE (x : Nat) : List Nat := toBytesLEF x x

/-- Rust `slice::chunks(k)`: successive chunks of length `k`, the last
possibly shorter.  Fuel `l.length` dominates for `k ≥ 1`. -/
def chunksF {α : Type} : Nat → List α → Nat → List (List α)
  | 0, _, _ => []
  | fuel + 1, l, k =>
    if l.isEmpty then [] else l.take k :: chunksF fuel (l.drop k) k

/-- Rust `slice::chunks(k)` over a byte list. -/
def chunks {α : Type} (l : List α) (k : Nat) : List (List α) :=
  chunksF l.length l k

/-- `transform::get_exact_chunks` (`transform.rs` lines 45-63): only
chunks filled to exactly `chunk_size` are emitted; a trailing partial
chunk is dropped (and for `chunk_size = 0` nothing is ever pushed). -/
def get_exact_chunks {α : Type} : Nat → List α → Nat → List (List α)
  | 0, _, _ => []
  | fuel + 1, l, k =>
    if k = 0 then []
    else if l.length < k then []
    else l.take k :: get_exact_chunks fuel (l.drop k) k

/-- `AsymmetricKeyMode` (`encryption/mod.rs`). -/
inductive AsymmetricKeyMode where
  | Private
  | Public
deriving DecidableEq

/-- The per-chunk body of `RSA::encrypt` (`rsa.rs` lines 80-109):
encrypt each 30-byte chunk, then right-pad the ciphertext bytes with
zeros up to `size_n`.  Threads the mutated key; one `PrivRand` is
consumed per `Private` chunk. -/
def encryptChunks (mode : AsymmetricKeyMode) :
    RSAKey → List (List Nat) → (Nat → PrivRand) → Nat → Option (List Nat × RSAKey)
  | k, [], _, _ => some ([], k)
  | k, ch :: rest, rnds, i =>
    let v := fromBytesLE ch
    let step : Option (Nat × RSAKey) :=
      match mode with
      | AsymmetricKeyMode.Private => use_private_key k v (rnds i)
      | AsymmetricKeyMode.Public => some (use_public_key k v, k)
    match step with
    | none => none
    | some r =>
      let bytes := toBytesLE r.1
      let padded := bytes ++ List.replicate (k.size_n - bytes.length) 0
      match encryptChunks mode r.2 rest rnds (i + 1) with
      | none => none
      | some tail => some (padded ++ tail.1, tail.2)

/-- `RSA::encrypt(data, mode, generator)` (`rsa.rs` lines 80-109),
with the generator replaced by a stream of per-chunk randomness. -/
def encrypt (k : RSAKey) (data : List Nat) (mode : AsymmetricKeyMode)
    (rnds : Nat → PrivRand) : Option (List Nat × RSAKey) :=
  encryptChunks mode k (chunks data 30) rnds 0

/-- The per-chunk body of `RSA::decrypt` (`rsa.rs` lines 122-158):
decrypt each `size_n` chunk; every chunk except the last is right-padded
back to 30 bytes (`RSA_CHUNK`). -/
def decryptChunks (mode : AsymmetricKeyMode) :
    RSAKey → List (List Nat) → (Nat → PrivRand) → Nat → Nat → Option (List Nat × RSAKey)
  | k, [], _, _, _ => some ([], k)
  | k, ch :: rest, rnds, i, total =>
    let v := fromBytesLE ch
    let step : Option (Nat × RSAKey) :=
      match mode with
      | AsymmetricKeyMode.Private => use_private_key k v (rnds i)
      | AsymmetricKeyMode.Public => some (use_public_key k v, k)
    match step with
    | none => none
    | some r =>
      let bytes := toBytesLE r.1
      let padded :=
        if i < total - 1 then bytes ++ List.replicate (30 - bytes.length) 0
        else bytes
      match decryptChunks mode r.2 rest rnds (i + 1) total with
      | none => none
      | some tail => some (padded ++ tail.1, tail.2)

/-- `RSA::decrypt(ciphertext, mode, generator)` (`rsa.rs` lines 122-158),
with the generator replaced by a stream of per-chunk randomness. -/
def decrypt (k : RSAKey) (ct : List Nat) (mode : AsymmetricKeyMode)
    (rnds : Nat → PrivRand) : Option (List Nat × RSAKey) :=
  let chs := get_exact_chunks ct.length ct k.size_n
  decryptChunks mode k chs rnds 0 chs.length

/-- `RSA::check_private_key` (`rsa.rs` lines 347-362): re-derive
`pq`, `dp`, `dq`, `qp` and `gcd(e, totient)` and compare with the stored
fields; any mismatch fails. -/
def check_private_key (k : RSAKey) : Bool :=
  let pq := k.p * k.q
  let p1 := k.p - 1
  let q1 := k.q - 1
  let totient := p1 * q1
  let g := Nat.gcd k.e totient
  let dp := k.d % p1
  let dq := k.d % q1
  let qp := modular_inverse k.q k.p
  if pq ≠ k.n ∨ dp ≠ k.dp ∨ dq ≠ k.dq ∨ qp ≠ k.qp ∨ g ≠ 1 then false else true

/-! ## Embedding of `src/key_exchange/diffie_hellman.rs` -/

/-- The `while l >= p { l >>= 1 }` style halving loops used by
`diffie_hellman.rs` (lines 174-176), `jacobian_coords.rs` (lines
260-264) and `montgomery_ladder.rs` (lines 125-129).  Fuel `v` dominates
for `p ≥ 1` (each step halves `v`). -/
def shrBelow : Nat → Nat → Nat → Nat
  | 0, _, v => v
  | fuel + 1, p, v => if p ≤ v then shrBelow fuel p (v / 2) else v

/-- The `while self.v_i <= one` draw loop of
`DiffieHellman::update_blinding` (`diffie_hellman.rs` lines 171-183):
draw `generate_random_biguint(p.bits())`, halve below `p`, give up after
the count passes 10.  Arguments: fuel, count, current `v_i`. -/
def dhViLoop (p : Nat) (draws : Nat → Nat) : Nat → Nat → Nat → Nat
  | 0, _, vi => vi
  | fuel + 1, count, vi =>
    if vi ≤ 1 then
      let vi' := shrBelow (generate_random_biguint (draws count)) p
                   (generate_random_biguint (draws count))
      if count + 1 > 10 then vi'
      else dhViLoop p draws fuel (count + 1) vi'
    else vi

/-- `DiffieHellman::update_blinding` (`diffie_hellman.rs` lines 149-190).
State `(px, v_i, v_f)` is threaded explicitly; `p` and `x` are the
engine's modulus and private exponent, `draws` the random tape of the
fresh-value branch.  Returns the new `(px, v_i, v_f)`.  Note the second
branch computes `v_i.modpow(v_i, p)` and then `v_i'.modpow(v_f, p)`,
exactly as the source does. -/
def update_blinding (p x px v_i v_f : Nat) (draws : Nat → Nat) :
    Nat × Nat × Nat :=
  if px ≠ x then (x, 1, 1)
  else if v_i ≠ 1 then
    let vi' := powMod v_i v_i p
    (px, vi', powMod vi' v_f p)
  else
    let vi' := dhViLoop p draws 11 0 v_i
    (px, vi', powMod (modular_inverse vi' p) x p)

/-! ## Embedding of `src/utils/montgomery_ladder.rs` -/

/-- The index/bit schedule of the ladder loop in
`montgomery_ladder::multiply` (`montgomery_ladder.rs` lines 51-63):
`i` starts at `m.bits()`, the loop runs while `i > 0`, each iteration
reads `d_i = (m >> i) & 1` and then executes `i >>= 1`.  The list
records, in order, the pair `(i, d_i)` of every iteration.  Fuel `i`
dominates since `i` strictly decreases. -/
def ladderScheduleF (m : Nat) : Nat → Nat → List (Nat × Nat)
  | 0, _ => []
  | fuel + 1, i =>
    if 0 < i then (i, (m >>> i) % 2) :: ladderScheduleF m fuel (i >>> 1)
    else []

/-- The `(i, d_i)` trace of the Montgomery-ladder loop for scalar `m`. -/
def ladderSchedule (m : Nat) : List (Nat × Nat) :=
  ladderScheduleF m (bitsOf m + 1) (bitsOf m)

/-! ## Embedding of the short-Weierstrass point arithmetic

`ECPPoint`, `ECPGroup` and the reduction helpers `mod_p`, `mod_reduce`,
`mod_increase` live in `utils/ecc_curves.rs`, which is not part of the
provided sources; they are modelled from the spec.  The point operations
themselves are transcribed from `src/utils/jacobian_coords.rs` and
`src/utils/comb_method.rs`. -/

/-- Modelled from the spec: a curve point with signed coordinates
(`x`, optional `y`, `z`).  The `y` coordinate is `Some` on every
short-Weierstrass point the embedded operations touch (the source
unwraps it), so it is carried as a plain integer here. -/
structure ECPPoint where
  x : Int
  y : Int
  z : Int
deriving DecidableEq

/-- Modelled from the spec: a short-Weierstrass curve group
`(p, a, b, g, n, nbits)`.  The lazily populated table `t` never
influences the returned point and is omitted. -/
structure ECPGroup where
  p : Nat
  a : Nat
  b : Nat
  g : ECPPoint
  n : Nat
  nbits : Nat
deriving DecidableEq

/-- Modelled from the spec: the field-reduction helper `mod_p`, which
reduces a signed intermediate into `[0, p)`.  `Int.emod` by a positive
modulus lands in `[0, p)` for inputs of either sign. -/
def ECPGroup.mod_p (G : ECPGroup) (v : Int) : Int := v % (G.p : Int)

/-- Modelled from the spec: `mod_reduce`, applied after additions and
doublings so that results lie in `[0, p)`. -/
def ECPGroup.mod_reduce (G : ECPGroup) (v : Int) : Int := v % (G.p : Int)

/-- Modelled from the spec: `mod_increase` (centred reduction), applied
after subtractions so that results lie in `[0, p)`. -/
def ECPGroup.mod_increase (G : ECPGroup) (v : Int) : Int := v % (G.p : Int)

/-- `jacobian_coords::normalize_point` (`jacobian_coords.rs` lines
35-55): `X' = X/Z² mod p`, `Y' = |Y/Z³ mod p|`, `Z' = 1`; a point with
`Z = 0` is returned unchanged. -/
def normalize_point (G : ECPGroup) (P : ECPPoint) : ECPPoint :=
  if P.z = 0 then P
  else
    let z_i := modular_inverse_int P.z (G.p : Int)
    let zz_i := G.mod_p (z_i * z_i)
    let x := G.mod_p (P.x * zz_i)
    let y_i := G.mod_p (P.y * zz_i)
    { x := x, y := |G.mod_p (y_i * z_i)|, z := 1 }

/-- `jacobian_coords::invert_point` (`jacobian_coords.rs` lines 81-90):
`(X, p - Y, Z)` when `Y ≠ 0`, else unchanged. -/
def invert_point (G : ECPGroup) (P : ECPPoint) : ECPPoint :=
  if P.y ≠ 0 then { P with y := (G.p : Int) - P.y } else P

/-- `jacobian_coords::double_point` (`jacobian_coords.rs` lines
110-161), with the `A != 0` branch included, transcribed statement by
statement. -/
def double_point (G : ECPGroup) (P : ECPPoint) : ECPPoint :=
  let s0 := G.mod_p (P.x * P.x)
  let m0 := G.mod_reduce (s0 * 3)
  let m1 :=
    if G.a ≠ 0 then
      let s1 := G.mod_p (P.z * P.z)
      let t1 := G.mod_p (s1 * s1)
      let s2 := G.mod_p (t1 * (G.a : Int))
      G.mod_reduce (m0 + s2)
    else m0
  let t2 := G.mod_p (P.y * P.y)
  let t3 := G.mod_reduce (t2 <<< 1)
  let s3 := G.mod_p (P.x * t3)
  let s4 := G.mod_reduce (s3 <<< 1)
  let u0 := G.mod_p (t3 * t3)
  let u1 := G.mod_reduce (u0 <<< 1)
  let t4 := G.mod_p (m1 * m1)
  let t5 := G.mod_increase (t4 - s4)
  let t6 := G.mod_increase (t5 - s4)
  let s5 := G.mod_increase (s4 - t6)
  let s6 := G.mod_p (s5 * m1)
  let s7 := G.mod_increase (s6 - u1)
  let u2 := G.mod_p (P.y * P.z)
  let u3 := G.mod_reduce (u2 <<< 1)
  { x := t6, y := s7, z := u3 }

/-- `jacobian_coords::add` (`jacobian_coords.rs` lines 188-234), mixed
affine-Jacobian addition.  When `Q.z ∉ {0, 1}` the source calls
`normalize_point(group, &mut Q)` but discards its return value, leaving
`Q` unchanged; the embedding reproduces that no-op. -/
def add (G : ECPGroup) (P Q : ECPPoint) : ECPPoint :=
  if P.z = 0 then Q
  else if Q.z = 0 then P
  else
    let t1 := G.mod_p (P.z * P.z)
    let t2 := G.mod_p (t1 * P.z)
    let t1a := G.mod_p (t1 * Q.x)
    let t2a := G.mod_p (t2 * Q.y)
    let t1b := G.mod_increase (t1a - P.x)
    let t2b := G.mod_increase (t2a - P.y)
    let z := G.mod_p (P.z * t1b)
    let t3 := G.mod_p (t1b * t1b)
    let t4 := G.mod_p (t3 * t1b)
    let t3a := G.mod_p (t3 * P.x)
    let t1c := G.mod_reduce (t3a * 2)
    let x0 := G.mod_p (t2b * t2b)
    let x1 := G.mod_increase (x0 - t1c)
    let x2 := G.mod_increase (x1 - t4)
    let t3b := G.mod_increase (t3a - x2)
    let t3c := G.mod_p (t3b * t2b)
    let t4a := G.mod_p (t4 * P.y)
    let y := G.mod_increase (t3c - t4a)
    { x := x2, y := y, z := z }

/-- `jacobian_coords::randomize_point` (`jacobian_coords.rs` lines
254-278): the random `l` is drawn by `primes::generate(p.bits())` and
halved while `≥ p`; `lraw` is the drawn value, the halving loop is
reproduced.  Then `(X, Y, Z) ↦ (l²X mod p, l³Y mod p, lZ mod p)`. -/
def randomize_point (G : ECPGroup) (P : ECPPoint) (lraw : Nat) : ECPPoint :=
  let l : Int := (shrBelow lraw G.p lraw : Nat)
  let z := G.mod_p (P.z * l)
  let x := G.mod_p (P.x * (l * l))
  let y := G.mod_p (P.y * (l * l * l))
  { x := x, y := y, z := z }

/-! ## Embedding of `src/utils/comb_method.rs` -/

/-- `comb_method::get_window_size` (`comb_method.rs` lines 216-241),
with `FIXED_POINT_OPT = true` and `ECP_WINDOW_SIZE = 6` as in the
source. -/
def get_window_size (nbits : Nat) (p_equals_g : Bool) : Nat :=
  let w0 := if 384 ≤ nbits then 5 else 4
  let w1 := if p_equals_g then w0 + 1 else w0
  let w2 := if 6 < w1 then 6 else w1
  if nbits ≤ w2 then 2 else w2

/-- The `while i > 0` loop of `comb_method::core_multiplication`
(`comb_method.rs` lines 198-203): double the accumulator, then add the
point `P` (the loop adds `p_clone`, the untouched copy of `P`, on every
iteration). -/
def coreLoop (G : ECPGroup) (P : ECPPoint) : Nat → ECPPoint → ECPPoint
  | 0, R => R
  | i + 1, R => coreLoop G P i (add G (double_point G R) P)

/-- `comb_method::core_multiplication` (`comb_method.rs` lines 183-206):
start from the point `(0, 0, 1)`, randomize it with the drawn `lraw`,
then run `m.bits()` iterations of the double-then-add loop. -/
def core_multiplication (G : ECPGroup) (P : ECPPoint) (m : Nat)
    (lraw : Nat) : ECPPoint :=
  let R0 : ECPPoint := { x := 0, y := 0, z := 1 }
  let R1 := randomize_point G R0 lraw
  coreLoop G P (bitsOf m) R1

/-- `comb_method::multiply` (`comb_method.rs` lines 120-170).  The
precomputed table `T` and the digit string `k = fixed_method(d, w, M)`
are computed by the source but never used for the returned point (the
table is only stored back on the group), so they do not appear here;
`w` and `d` are still computed as in the source.  `lraw` is the random
value drawn inside `randomize_point`. -/
def multiply (G : ECPGroup) (m : Nat) (P : ECPPoint) (lraw : Nat) : ECPPoint :=
  let p_equals_g := P.x = G.g.x && P.y = G.g.y
  let m_is_even := m % 2 = 0
  let w := get_window_size G.nbits p_equals_g
  let _d := (G.nbits + w - 1) / w
  let M := if m_is_even then G.n - m else m
  let R := core_multiplication G P M lraw
  let R1 := if m_is_even then invert_point G R else R
  normalize_point G R1

/-! ## Reference: naive double-and-add over affine points

Written from the spec's words ("the naive double-and-add computation of
`m·g`"): textbook affine chord-tangent arithmetic on
`y² = x³ + ax + b mod p`, consuming the scalar bits most significant
first.  `none` is the identity. -/

/-- Affine negation test helper: addition of affine points on
`y² = x³ + a x + b` over `F_p` by the chord-tangent rules, using the
extended-Euclid inverse.  Inputs and outputs are reduced mod `p`. -/
def affAdd (p a : Nat) : Option (Nat × Nat) → Option (Nat × Nat) → Option (Nat × Nat)
  | none, Q => Q
  | P, none => P
  | some P, some Q =>
    if P.1 = Q.1 ∧ (P.2 + Q.2) % p = 0 then none
    else
      let lam : Nat :=
        if P = Q then
          (3 * P.1 * P.1 + a) * modular_inverse (2 * P.2 % p) p % p
        else
          ((Q.2 + p) - P.2) * modular_inverse (((Q.1 + p) - P.1) % p) p % p
      let x3 := ((lam * lam + 2 * p * p) - (P.1 + Q.1)) % p
      let y3 := ((lam * ((P.1 + p) - x3) + p * p) - P.2) % p
      some (x3, y3)

/-- Most-significant-bit-first double-and-add: the accumulator is
doubled each step and the base point added when the scalar bit is set. -/
def naiveLoop (p a : Nat) (P : Nat × Nat) : Nat → Nat → Option (Nat × Nat) → Option (Nat × Nat)
  | 0, _, acc => acc
  | i + 1, m, acc =>
    let acc1 := affAdd p a acc acc
    let acc2 := if (m >>> i) % 2 = 1 then affAdd p a acc1 (some P) else acc1
    naiveLoop p a P i m acc2

/-- Naive double-and-add scalar multiplication `m · P` on the affine
curve `y² = x³ + a x + b` over `F_p`. -/
def naiveMul (p a m : Nat) (P : Nat × Nat) : Option (Nat × Nat) :=
  naiveLoop p a P (bitsOf m) m none

/-! ## Concrete instances used by the claims -/

/-- The RSA round trip `decrypt(encrypt(x, Public), Private)` from the
spec's invariant, composed exactly from the embedded `encrypt` and
`decrypt` (both threading the mutated key and the random stream). -/
def rsaRoundTripPP (k : RSAKey) (data : List Nat) (rnds : Nat → PrivRand) :
    Option (List Nat) :=
  match encrypt k data AsymmetricKeyMode.Public rnds with
  | none => none
  | some r => (decrypt r.2 r.1 AsymmetricKeyMode.Private rnds).map Prod.fst

/-- A keypair produced by `RSA::generate_keypair(128, 65537)` from the
primes `p = 2^64 - 59` and `q = 2^64 - 83` (the two largest 64-bit
primes; `generate(64)` can draw any odd prime below `2^64`):
`n = p*q` has exactly 128 bits, `gcd(e, (p-1)(q-1)) = 1`,
`d = e⁻¹ mod φ`, `dp = d mod (p-1)`, `dq = d mod (q-1)`,
`qp = q⁻¹ mod p`, `size_n = bits(n+7) >> 3 = 16`, CRT enabled. -/
def rsaKey128 : RSAKey :=
  { n := 340282366920938460843936948965011886881
  , e := 65537
  , d := 196442361873243903843228745541797845217
  , p := 18446744073709551557
  , q := 18446744073709551533
  , dp := 1563288166766602825
  , dq := 17335497821928034077
  , qp := 3843071682022823241
  , v_i := 0, v_f := 0
  , use_crt := true
  , size_n := 16 }

/-- The same keypair with the Chinese-Remainder path disabled. -/
def rsaKey128NoCrt : RSAKey := { rsaKey128 with use_crt := false }

/-- Randomness for one private operation on `rsaKey128`: the blinding
loop draws `v_f = 12345` (a 15-bit value, as `gen_biguint(size_n - 1)`
produces, coprime to `n`), and the two 28-byte exponent-blinding draws
are zero. -/
def rsaRand128 : PrivRand := { vfDraws := fun _ => 12345, rA := 0, rB := 0 }

/-- The curve `y² = x³ + x + 6` over `F₁₁` with base point `g = (2, 7)`
of prime order `n = 13`: a short-Weierstrass group of small order as in
the spec's scalar-multiplication invariant. -/
def toyGroup : ECPGroup :=
  { p := 11, a := 1, b := 6, g := { x := 2, y := 7, z := 1 }, n := 13, nbits := 4 }

/-- A small mathematically consistent RSA key: `p = 11`, `q = 5`,
`n = 55`, `e = 3`, `φ = 40`, `d = 27`, `dp = 27 mod 10 = 7`,
`dq = 27 mod 4 = 3`, `qp = 5⁻¹ mod 11 = 9`, CRT enabled. -/
def rsaKey55 : RSAKey :=
  { n := 55, e := 3, d := 27, p := 11, q := 5, dp := 7, dq := 3, qp := 9
  , v_i := 0, v_f := 0, use_crt := true, size_n := 0 }

/-- Randomness for one private operation on `rsaKey55`: blinding draw
`v_f = 2`, exponent-blinding draws `r = r' = 1`. -/
def rsaRand55 : PrivRand := { vfDraws := fun _ => 2, rA := 1, rB := 1 }

/-- The key state `use_private_key rsaKey55 2 rsaRand55` leaves behind:
`dp` overwritten with `dp + 1·(p-1) = 17`, `dq` with `dq + 1·(q-1) = 7`,
and the blinding pair set to `(v_i, v_f) = (7, 2)`. -/
def rsaKey55After : RSAKey :=
  { n := 55, e := 3, d := 27, p := 11, q := 5, dp := 17, dq := 7, qp := 9
  , v_i := 7, v_f := 2, use_crt := true, size_n := 0 }

/-! ## Helper lemmas about the extended-Euclid loop -/

/-- With `mn.1 = 0` the loop exits at once, whatever the fuel. -/
theorem eeLoop_m1_zero (fuel m0 : Nat) (x0 x1 : Int) :
    eeLoop fuel m0 0 x0 x1 = (m0, x0) := by
  cases fuel with
  | zero => rfl
  | succ f => simp [eeLoop]

/-- Invariant of `eeLoop`: the first component of the result is the gcd
of the pair, and the Bezout coefficient carried in the second component
satisfies `x * a ≡ gcd [ZMOD M]` whenever the incoming coefficients
satisfy the corresponding congruences. -/
theorem eeLoop_gcd_cong (a M : Nat) :
    ∀ (fuel m0 m1 : Nat) (x0 x1 : Int), m1 ≤ fuel →
      x0 * (a : Int) ≡ (m0 : Int) [ZMOD (M : Int)] →
      x1 * (a : Int) ≡ (m1 : Int) [ZMOD (M : Int)] →
      (eeLoop fuel m0 m1 x0 x1).1 = Nat.gcd m0 m1 ∧
      (eeLoop fuel m0 m1 x0 x1).2 * (a : Int) ≡
        ((eeLoop fuel m0 m1 x0 x1).1 : Int) [ZMOD (M : Int)] := by
  intro fuel
  induction fuel with
  | zero =>
    intro m0 m1 x0 x1 hf h0 h1
    have hm1 : m1 = 0 := Nat.le_zero.mp hf
    subst hm1
    exact ⟨(Nat.gcd_zero_right m0).symm, by simpa [eeLoop] using h0⟩
  | succ f ih =>
    intro m0 m1 x0 x1 hf h0 h1
    by_cases hm1 : m1 = 0
    · subst hm1
      rw [eeLoop_m1_zero]
      exact ⟨(Nat.gcd_zero_right m0).symm, h0⟩
    · have hstep : eeLoop (f + 1) m0 m1 x0 x1 =
          eeLoop f m1 (m0 % m1) x1 (x0 - (↑(m0 / m1)) * x1) := by
        simp [eeLoop, hm1]
      have hrec : ((m0 % m1 : Nat) : Int) = (m0 : Int) - (↑(m0 / m1)) * (m1 : Int) := by
        have hnat : m0 % m1 + m0 / m1 * m1 = m0 := Nat.mod_add_div' m0 m1
        have hcast : ((m0 % m1 : Nat) : Int) + ((m0 / m1 : Nat) : Int) * (m1 : Int)
            = (m0 : Int) := by exact_mod_cast hnat
        linarith
      have h2 : (x0 - (↑(m0 / m1)) * x1) * (a : Int) ≡
          ((m0 % m1 : Nat) : Int) [ZMOD (M : Int)] := by
        rw [hrec]
        have := Int.ModEq.sub h0 (Int.ModEq.mul_left (↑(m0 / m1)) h1)
        calc (x0 - (↑(m0 / m1)) * x1) * (a : Int)
            = x0 * a - (↑(m0 / m1)) * (x1 * a) := by ring
          _ ≡ (m0 : Int) - (↑(m0 / m1)) * (m1 : Int) [ZMOD (M : Int)] := this
      have hfle : m0 % m1 ≤ f := by
        have := Nat.mod_lt m0 (Nat.pos_of_ne_zero hm1)
        omega
      have hmain := ih m1 (m0 % m1) x1 (x0 - (↑(m0 / m1)) * x1) hfle h1 h2
      rw [hstep]
      refine ⟨?_, hmain.2⟩
      rw [hmain.1, Nat.gcd_comm m0 m1, Nat.gcd_rec m1 m0, Nat.gcd_comm]

/-- Sign bookkeeping of the Bezout update: when the current pair of
coefficients has opposite (weak) signs, `x0 - q * x1` has absolute value
`|x0| + q * |x1|` and is again of sign opposite to `x1`. -/
theorem sub_mul_natAbs_sign (x0 x1 : Int) (q : Nat) (h : x0 * x1 ≤ 0) :
    (x0 - (q : Int) * x1).natAbs = x0.natAbs + q * x1.natAbs ∧
    x1 * (x0 - (q : Int) * x1) ≤ 0 := by
  have hq0 : (0 : Int) ≤ (q : Int) := Int.natCast_nonneg q
  have habs : ((q : Int) * x1).natAbs = q * x1.natAbs := by
    rw [Int.natAbs_mul, Int.natAbs_ofNat]
  rcases mul_nonpos_iff.mp h with ⟨h0, h1⟩ | ⟨h0, h1⟩
  · have hc : (q : Int) * x1 ≤ 0 :=
      mul_nonpos_iff.mpr (Or.inl ⟨hq0, h1⟩)
    have hnn : 0 ≤ x0 - (q : Int) * x1 := by omega
    exact ⟨by omega, mul_nonpos_iff.mpr (Or.inr ⟨h1, hnn⟩)⟩
  · have hc : 0 ≤ (q : Int) * x1 := mul_nonneg hq0 h1
    have hnp : x0 - (q : Int) * x1 ≤ 0 := by omega
    exact ⟨by omega, mul_nonpos_iff.mpr (Or.inl ⟨h1, hnp⟩)⟩

/-- Bound on the Bezout coefficient returned by `eeLoop`: under the loop
invariant `|x1|·m0 + |x0|·m1 = M` (with opposite-sign coefficients and
positive moduli) the returned coefficient has absolute value at most
`M`. -/
theorem eeLoop_bound (M : Nat) :
    ∀ (fuel m0 m1 : Nat) (x0 x1 : Int), m1 ≤ fuel →
      1 ≤ m0 → 1 ≤ m1 → x0 * x1 ≤ 0 →
      x1.natAbs * m0 + x0.natAbs * m1 = M →
      (eeLoop fuel m0 m1 x0 x1).2.natAbs ≤ M := by
  intro fuel
  induction fuel with
  | zero => intro m0 m1 x0 x1 hf _ hm1 _ _; omega
  | succ f ih =>
    intro m0 m1 x0 x1 hf hm0 hm1 hsgn hS
    have hm1' : m1 ≠ 0 := by omega
    have hstep : eeLoop (f + 1) m0 m1 x0 x1 =
        eeLoop f m1 (m0 % m1) x1 (x0 - (↑(m0 / m1)) * x1) := by
      simp [eeLoop, hm1']
    rw [hstep]
    have hsub := sub_mul_natAbs_sign x0 x1 (m0 / m1) hsgn
    by_cases hr : m0 % m1 = 0
    · rw [hr, eeLoop_m1_zero]
      have : x1.natAbs ≤ x1.natAbs * m0 := Nat.le_mul_of_pos_right _ hm0
      omega
    · have hfle : m0 % m1 ≤ f := by
        have := Nat.mod_lt m0 (Nat.pos_of_ne_zero hm1')
        omega
      have hdm : m1 * (m0 / m1) + m0 % m1 = m0 := Nat.div_add_mod m0 m1
      have hS' : (x0 - (↑(m0 / m1)) * x1).natAbs * m1 +
          x1.natAbs * (m0 % m1) = M := by
        rw [hsub.1]
        calc (x0.natAbs + m0 / m1 * x1.natAbs) * m1 + x1.natAbs * (m0 % m1)
            = x0.natAbs * m1 + x1.natAbs * (m1 * (m0 / m1) + m0 % m1) := by ring
          _ = x0.natAbs * m1 + x1.natAbs * m0 := by rw [hdm]
          _ = M := by omega
      exact ih m1 (m0 % m1) x1 _ hfle hm1 (Nat.pos_of_ne_zero hr) hsub.2 hS'

/-- The normalisation loop: with positive modulus and enough fuel, the
result is non-negative, congruent to the input, and below `m` whenever
the input is. -/
theorem normLoop_spec (m : Nat) (hm : 1 ≤ m) :
    ∀ (fuel : Nat) (x : Int), -(fuel : Int) ≤ x →
      0 ≤ normLoop fuel m x ∧
      normLoop fuel m x ≡ x [ZMOD (m : Int)] ∧
      (x < (m : Int) → normLoop fuel m x < (m : Int)) := by
  intro fuel
  induction fuel with
  | zero =>
    intro x hx
    refine ⟨by simpa [normLoop] using hx, by simp [normLoop, Int.ModEq.refl], ?_⟩
    intro h; simpa [normLoop] using h
  | succ f ih =>
    intro x hx
    by_cases hneg : x < 0
    · have hx' : -(f : Int) ≤ x + m := by push_cast at hx ⊢; omega
      have hrec := ih (x + m) hx'
      have heq : normLoop (f + 1) m x = normLoop f m (x + m) := by
        simp [normLoop, hneg]
      have hcong : normLoop f m (x + m) ≡ x [ZMOD (m : Int)] := by
        refine hrec.2.1.trans ?_
        simp [Int.ModEq]
      refine ⟨by rw [heq]; exact hrec.1, by rw [heq]; exact hcong, ?_⟩
      intro _
      rw [heq]
      exact hrec.2.2 (by omega)
    · have heq : normLoop (f + 1) m x = x := by simp [normLoop, hneg]
      exact ⟨by omega, by rw [heq], by intro h; omega⟩

/-- `powMod` stays below a positive modulus. -/
theorem powMod_lt (m : Nat) (hm : 0 < m) :
    ∀ (fuel b e : Nat), powModF fuel b e m < m := by
  intro fuel
  induction fuel with
  | zero => intro b e; exact Nat.mod_lt _ hm
  | succ f ih =>
    intro b e
    by_cases he : e = 0
    · simp [powModF, he]; exact Nat.mod_lt _ hm
    · simp only [powModF, he, if_false]
      by_cases hodd : e % 2 = 1
      · simp only [hodd, if_true]; exact Nat.mod_lt _ hm
      · simp only [hodd, if_false]; exact ih _ _

/-- Facts shared by the two `modular_inverse` theorems: the returned
value `r` satisfies `0 ≤ r`, `r * a ≡ gcd m a [ZMOD m]` and
`modular_inverse a m = r.toNat`, for any `m ≥ 1`. -/
theorem modular_inverse_core (a m : Nat) (hm : 1 ≤ m) :
    0 ≤ normLoop ((eeLoop a m a 0 1).2.natAbs + 1) m (eeLoop a m a 0 1).2 ∧
    normLoop ((eeLoop a m a 0 1).2.natAbs + 1) m (eeLoop a m a 0 1).2 * (a : Int) ≡
      ((Nat.gcd m a : Nat) : Int) [ZMOD (m : Int)] := by
  have h0 : (0 : Int) * (a : Int) ≡ (m : Int) [ZMOD (m : Int)] := by
    simp [Int.ModEq]
  have h1 : (1 : Int) * (a : Int) ≡ (a : Int) [ZMOD (m : Int)] := by
    simp
  have hmain := eeLoop_gcd_cong a m a m a 0 1 le_rfl h0 h1
  have hnorm := normLoop_spec m hm ((eeLoop a m a 0 1).2.natAbs + 1)
    (eeLoop a m a 0 1).2 (by omega)
  refine ⟨hnorm.1, ?_⟩
  have hcong := (hnorm.2.1.mul_right (a : Int)).trans hmain.2
  rwa [hmain.1] at hcong

/-- C7 (amended): for every pair `(a, m)` with `m ≥ 2` and
`gcd(a, m) = 1`, `(a * modular_inverse(a, m)) mod m = 1` and the result
lies in `[0, m)`.  (The claim's `m > 0` is narrowed to `m ≥ 2`: at
`m = 1` the function returns 1, which is neither below `m` nor an
inverse mod 1 in the claimed sense.) -/
theorem c7_modular_inverse_amended (a m : Nat) (hm : 2 ≤ m) (h : Nat.gcd a m = 1) :
    (a * modular_inverse a m) % m = 1 ∧ modular_inverse a m < m := by
  have ha : 1 ≤ a := by
    rcases Nat.eq_zero_or_pos a with h0 | h1
    · subst h0; rw [Nat.gcd_zero_left] at h; omega
    · exact h1
  have hcore := modular_inverse_core a m (by omega)
  have hgcd : Nat.gcd m a = 1 := by rw [Nat.gcd_comm]; exact h
  have hcong : normLoop ((eeLoop a m a 0 1).2.natAbs + 1) m (eeLoop a m a 0 1).2 *
      (a : Int) ≡ 1 [ZMOD (m : Int)] := by
    have := hcore.2
    rw [hgcd] at this
    exact_mod_cast this
  have hbound := eeLoop_bound m a m a 0 1 le_rfl (by omega) ha (by simp) (by simp)
  have hcong0 : (eeLoop a m a 0 1).2 * (a : Int) ≡ 1 [ZMOD (m : Int)] := by
    have h0 : (0 : Int) * (a : Int) ≡ (m : Int) [ZMOD (m : Int)] := by
      simp [Int.ModEq]
    have h1 : (1 : Int) * (a : Int) ≡ (a : Int) [ZMOD (m : Int)] := by simp
    have hmain := eeLoop_gcd_cong a m a m a 0 1 le_rfl h0 h1
    have := hmain.2
    rw [hmain.1, hgcd] at this
    exact_mod_cast this
  have hne : (eeLoop a m a 0 1).2 ≠ (m : Int) := by
    intro hEq
    rw [hEq] at hcong0
    have h2 : ((m : Int) * (a : Int)) % (m : Int) = 1 % (m : Int) := hcong0
    rw [Int.mul_emod_right] at h2
    have h3 : (1 : Int) % (m : Int) = 1 :=
      Int.emod_eq_of_lt (by omega) (by exact_mod_cast hm)
    omega
  have hlt : (eeLoop a m a 0 1).2 < (m : Int) := by
    have hle := Int.le_natAbs (a := (eeLoop a m a 0 1).2)
    have h4 : ((eeLoop a m a 0 1).2.natAbs : Int) ≤ (m : Int) := by
      exact_mod_cast hbound
    omega
  have hnorm := normLoop_spec m (by omega) ((eeLoop a m a 0 1).2.natAbs + 1)
    (eeLoop a m a 0 1).2 (by omega)
  have hrlt := hnorm.2.2 hlt
  have hr0 := hnorm.1
  constructor
  · have hcast : ((a * modular_inverse a m : Nat) : Int) =
        normLoop ((eeLoop a m a 0 1).2.natAbs + 1) m (eeLoop a m a 0 1).2 * (a : Int) := by
      show ((a * (normLoop ((eeLoop a m a 0 1).2.natAbs + 1) m (eeLoop a m a 0 1).2).toNat :
        Nat) : Int) = _
      push_cast [Int.toNat_of_nonneg hr0]
      ring
    have hfin : ((a * modular_inverse a m : Nat) : Int) % (m : Int) = 1 % (m : Int) := by
      rw [hcast]; exact hcong
    have h1m : (1 : Nat) % m = 1 := Nat.mod_eq_of_lt (by omega)
    have : (a * modular_inverse a m) % m = 1 % m := by exact_mod_cast hfin
    omega
  · show (normLoop ((eeLoop a m a 0 1).2.natAbs + 1) m (eeLoop a m a 0 1).2).toNat < m
    omega

/-- C8 (amended): `modular_inverse` never fails — it has no error path
at all.  For every `a` and every `m ≥ 1`, coprime or not, it returns a
value `x` with `(a * x) mod m = gcd(a, m) mod m` instead of raising
`NotInvertible`. -/
theorem c8_modular_inverse_total_amended (a m : Nat) (hm : 1 ≤ m) :
    (a * modular_inverse a m) % m = Nat.gcd a m % m := by
  have hcore := modular_inverse_core a m hm
  have hcast : ((a * modular_inverse a m : Nat) : Int) =
      normLoop ((eeLoop a m a 0 1).2.natAbs + 1) m (eeLoop a m a 0 1).2 * (a : Int) := by
    show ((a * (normLoop ((eeLoop a m a 0 1).2.natAbs + 1) m (eeLoop a m a 0 1).2).toNat :
      Nat) : Int) = _
    push_cast [Int.toNat_of_nonneg hcore.1]
    ring
  have hfin : ((a * modular_inverse a m : Nat) : Int) % (m : Int) =
      ((Nat.gcd m a : Nat) : Int) % (m : Int) := by
    rw [hcast]; exact hcore.2
  have : (a * modular_inverse a m) % m = Nat.gcd m a % m := by exact_mod_cast hfin
  rwa [Nat.gcd_comm m a] at this

/-! ## Helper lemmas about prime generation, RSA state, and CRT -/

/-- `generate_random_biguint` produces exactly `2 r + 1`. -/
theorem generate_random_biguint_eq (r : Nat) :
    generate_random_biguint r = 2 * r + 1 := by
  unfold generate_random_biguint
  rw [Nat.shiftLeft_eq, pow_one, Nat.mul_comm]
  apply Nat.eq_of_testBit_eq
  intro i
  rw [Nat.testBit_xor]
  cases i with
  | zero => simp [Nat.testBit_zero, Nat.mul_add_mod]
  | succ j =>
    rw [Nat.testBit_succ, Nat.testBit_succ, Nat.testBit_succ]
    have h1 : 2 * r / 2 = r := by omega
    have h2 : (1 : Nat) / 2 = 0 := by norm_num
    have h3 : (2 * r + 1) / 2 = r := by omega
    rw [h1, h2, h3, Nat.zero_testBit]
    simp

/-- C6 (amended): every value `generate(b)` returns is odd (trailing
bit set) and below `2 ^ b` — but the leading bit is NOT forced, since
the candidate is built by shifting `b - 1` random bits left and setting
the low bit, so `2 ^ (b-1) ≤ p` can fail. -/
theorem c6_generate_shape_amended (b : Nat) (hb : 1 ≤ b) :
    ∀ (tape : List GenDraw), (∀ dr ∈ tape, dr.r < 2 ^ (b - 1)) →
      ∀ x, generate b tape = some x → x % 2 = 1 ∧ x < 2 ^ b := by
  intro tape
  induction tape with
  | nil => intro _ x hx; simp [generate] at hx
  | cons dr rest ih =>
    intro hdr x hx
    rw [generate] at hx
    split at hx
    · have hdx : x = generate_random_biguint dr.r := by
        cases hx; rfl
      have hr : dr.r < 2 ^ (b - 1) := hdr dr (List.mem_cons_self dr rest)
      have hpow : 2 ^ (b - 1) * 2 = 2 ^ b := by
        rw [← pow_succ]
        congr 1
        omega
      rw [hdx, generate_random_biguint_eq]
      omega
    · exact ih (fun d hd => hdr d (List.mem_cons_of_mem dr hd)) x hx

/-- `prepare_blinding` never touches the arithmetic fields of the key:
only `v_i` and `v_f` change. -/
theorem prepare_blinding_frame (k : RSAKey) (draws : Nat → Nat) (k1 : RSAKey)
    (h : prepare_blinding k draws = some k1) :
    k1.n = k.n ∧ k1.e = k.e ∧ k1.d = k.d ∧ k1.p = k.p ∧ k1.q = k.q ∧
    k1.dp = k.dp ∧ k1.dq = k.dq ∧ k1.qp = k.qp ∧ k1.use_crt = k.use_crt := by
  unfold prepare_blinding at h
  split at h
  · cases h
    simp
  · rcases hv : vfLoop k.n draws 11 0 k.v_i k.v_f with _ | r
    · rw [hv] at h
      cases h
    · rw [hv] at h
      cases h
      simp

/-- C10: a private-key operation with `use_crt` enabled overwrites the
stored `dp` with `dp + r·(p-1)` and `dq` with `dq + r'·(q-1)`; for a
consistent key and a non-zero draw `r`, the stored `dp` afterwards
differs from `d mod (p-1)`, and `check_private_key` — which re-derives
`dp` and `dq` and compares them with the stored fields — rejects the
mutated key even though it is mathematically consistent. -/
theorem c10_private_op_clobbers_dp (k : RSAKey) (input : Nat) (rnd : PrivRand)
    (out : Nat) (k1 : RSAKey)
    (hp : 2 ≤ k.p) (hr : 1 ≤ rnd.rA) (hcrt : k.use_crt = true)
    (hdp : k.dp = k.d % (k.p - 1))
    (h : use_private_key k input rnd = some (out, k1)) :
    k1.dp = (k.p - 1) * rnd.rA + k.dp ∧
    k1.dq = (k.q - 1) * rnd.rB + k.dq ∧
    k1.dp ≠ k1.d % (k1.p - 1) ∧
    check_private_key k1 = false := by
  unfold use_private_key at h
  rcases hb : prepare_blinding k rnd.vfDraws with _ | kb
  · rw [hb] at h; cases h
  · rw [hb] at h
    have hf := prepare_blinding_frame k rnd.vfDraws kb hb
    have hcrtkb : kb.use_crt = true := by rw [hf.2.2.2.2.2.2.2.2, hcrt]
    have h2 : (if kb.use_crt = true then
        (match crtRecombine kb.p kb.q kb.qp ((kb.p - 1) * rnd.rA + kb.dp)
            ((kb.q - 1) * rnd.rB + kb.dq) (input * kb.v_i % kb.n) with
          | none => none
          | some tc =>
            some (tc * kb.v_f % kb.n,
              { kb with dp := (kb.p - 1) * rnd.rA + kb.dp
                      , dq := (kb.q - 1) * rnd.rB + kb.dq }))
        else some (powMod (input * kb.v_i % kb.n) kb.d kb.n * kb.v_f % kb.n, kb)) =
        some (out, k1) := h
    rw [if_pos hcrtkb] at h2
    rcases hc : crtRecombine kb.p kb.q kb.qp ((kb.p - 1) * rnd.rA + kb.dp)
        ((kb.q - 1) * rnd.rB + kb.dq) (input * kb.v_i % kb.n) with _ | tc
    · rw [hc] at h2; cases h2
    · rw [hc] at h2
      cases h2
      have hdpv : ((kb.p - 1) * rnd.rA + kb.dp) = (k.p - 1) * rnd.rA + k.dp := by
        rw [hf.2.2.2.1, hf.2.2.2.2.2.1]
      have hdqv : ((kb.q - 1) * rnd.rB + kb.dq) = (k.q - 1) * rnd.rB + k.dq := by
        rw [hf.2.2.2.2.1, hf.2.2.2.2.2.2.1]
      have hmul : k.p - 1 ≤ (k.p - 1) * rnd.rA :=
        Nat.le_mul_of_pos_right _ hr
      have hmodlt : k.d % (k.p - 1) < k.p - 1 :=
        Nat.mod_lt _ (by omega)
      have hne : (k.p - 1) * rnd.rA + k.dp ≠ k.d % (k.p - 1) := by omega
      refine ⟨by simpa using hdpv, by simpa using hdqv, ?_, ?_⟩
      · simpa [hf.2.2.1, hf.2.2.2.1, hf.2.2.2.2.2.1] using hne
      · have hcond : k.d % (k.p - 1) ≠ (k.p - 1) * rnd.rA + k.dp := fun hEq => hne hEq.symm
        simp only [check_private_key]
        rw [if_pos]
        exact Or.inr (Or.inl (by
          simpa [hf.2.2.1, hf.2.2.2.1, hf.2.2.2.2.2.1] using hcond))

/-- C3 (amended): the CRT private operation computes the recombination
`t = ((t1 - t2)·qp mod p)·q + t2` only on inputs with `t1 ≥ t2`; the
intermediate difference `t1 - t2` over unsigned big integers underflows
(the operation panics) exactly when `t1 < t2`, so the error branch is
reachable, not unreachable.  On success the result is congruent to `t2`
modulo `q`. -/
theorem crtRecombine_eq (p q qp dp dq t : Nat) :
    crtRecombine p q qp dp dq t =
      if powMod t dp p < powMod t dq q then none
      else some ((powMod t dp p - powMod t dq q) * qp % p * q + powMod t dq q) := rfl

theorem c3_crt_underflow_amended (p q qp dp dq t r : Nat) (hq : 0 < q) :
    (crtRecombine p q qp dp dq t = none ↔ powMod t dp p < powMod t dq q) ∧
    (crtRecombine p q qp dp dq t = some r → r % q = powMod t dq q) := by
  rw [crtRecombine_eq]
  by_cases hlt : powMod t dp p < powMod t dq q
  · rw [if_pos hlt]
    exact ⟨⟨fun _ => hlt, fun _ => rfl⟩, fun h => nomatch h⟩
  · rw [if_neg hlt]
    constructor
    · constructor
      · intro h
        cases h
      · intro h
        exact absurd h hlt
    · intro h
      cases h
      rw [Nat.add_comm, Nat.add_mul_mod_self_right]
      exact Nat.mod_eq_of_lt (powMod_lt q hq _ _ _)

/-! ## Claim theorems -/

/-- C1: the claim states that the comb-method `multiply(group, m, g, rng)`
returns the same affine point as the naive double-and-add computation of
`m·g`, its main loop adding the pre-table entry selected from the comb
digit encoding.  It does not: the loop of `core_multiplication` ignores
the table and the digit string and adds `P` itself on every one of the
`bits(M)` iterations, so on the order-13 curve `y² = x³ + x + 6` over
`F₁₁` with `g = (2, 7)` and `m = 5` (randomizer draw `l = 3`) the code
returns the affine point `(7, 2) = 7·g` while naive double-and-add gives
`5·g = (3, 6)`. -/
theorem c1_comb_multiply_diverges :
    5 < toyGroup.n ∧
    multiply toyGroup 5 toyGroup.g 3 = { x := 7, y := 2, z := 1 } ∧
    naiveMul 11 1 5 (2, 7) = some (3, 6) ∧
    ({ x := 7, y := 2, z := 1 } : ECPPoint) ≠ { x := 3, y := 6, z := 1 } := by
  refine ⟨by decide, by decide, by decide, by decide⟩

set_option maxRecDepth 1000000 in
/-- C2: the claim states that `decrypt(encrypt(x, Public), Private) = x`
for every generated keypair and every message of byte length at most
`size_n`, with and without CRT.  With CRT enabled it fails: on the
128-bit keypair `rsaKey128` (primes `2^64 - 59` and `2^64 - 83`,
`e = 65537`), message byte `[2]`, blinding draw `v_f = 12345` and zero
exponent-blinding draws, the private operation reaches `t1 < t2` and the
unsigned subtraction `t1 - t2` underflows (the Rust code panics), so the
round trip produces no value at all — while the identical key with
`use_crt = false` round-trips the same message correctly. -/
theorem c2_rsa_roundtrip_crt_panics :
    rsaRoundTripPP rsaKey128 [2] (fun _ => rsaRand128) = none ∧
    rsaRoundTripPP rsaKey128NoCrt [2] (fun _ => rsaRand128) = some [2] := by
  refine ⟨by decide, by decide⟩

/-- C3 (counterexample): on the mathematically valid CRT key `p = 11`,
`q = 5`, `e = 3`, `d = 27`, `dp = 7`, `dq = 3`, `qp = 9` the input
`t = 12` gives `t1 = 12^7 mod 11 = 1 < 3 = 12^3 mod 5 = t2`, and the
recombination hits the underflow branch the claim calls unreachable:
the operation fails instead of returning a value. -/
theorem c3_crt_underflow_counterexample :
    11 * 5 = 55 ∧ 27 % (11 - 1) = 7 ∧ 27 % (5 - 1) = 3 ∧
    modular_inverse 5 11 = 9 ∧ (3 * 27) % ((11 - 1) * (5 - 1)) = 1 ∧
    powMod 12 7 11 < powMod 12 3 5 ∧
    crtRecombine 11 5 9 7 3 12 = none := by
  refine ⟨by decide, by decide, by decide, by decide, by decide, by decide, by decide⟩

/-- C3 (witness for the amended theorem): at the same key and input
`t = 2` there is no underflow and the recombination returns 18, which is
congruent to `t2 = 2^3 mod 5 = 3` modulo `q`. -/
theorem c3_crt_underflow_witness :
    (0 : Nat) < 5 ∧
    ((crtRecombine 11 5 9 7 3 2 = none ↔ powMod 2 7 11 < powMod 2 3 5) ∧
     (crtRecombine 11 5 9 7 3 2 = some 18 → 18 % 5 = powMod 2 3 5)) :=
  ⟨by decide, c3_crt_underflow_amended 11 5 9 7 3 2 18 (by decide)⟩

/-- C4: the claim states that the Montgomery-ladder loop runs `i` from
`bits(m) - 1` down to `0`, one step per iteration, for exactly `bits(m)`
iterations.  It does not: `i` starts at `bits(m)` and the loop executes
`i >>= 1`, so for `m = 5` (three bits) the loop runs only twice, reading
`d_i` at the indices 3 and 1 — bit 3 does not exist and bits 2 and 0 are
never consumed. -/
theorem c4_ladder_schedule_diverges :
    ladderSchedule 5 = [(3, 0), (1, 0)] ∧
    (ladderSchedule 5).length ≠ bitsOf 5 ∧
    (ladderSchedule 5).map Prod.fst ≠ [2, 1, 0] := by
  refine ⟨by decide, by decide, by decide⟩

/-- C5: the claim states that `miller_rabin` returns `true` on every odd
prime, the witness loop early-terminating only on confirmed composites —
in particular that a base whose successive squarings reach
`candidate - 1` never causes a `false` return.  It does not hold: the
`break` taken when `y` reaches `candidate - 1` falls through to the
`return false` after the loop, so the prime 13 with the in-range base 5
(`5^3 mod 13 = 8`, `8^2 mod 13 = 12 = 13 - 1`) is declared composite. -/
theorem c5_miller_rabin_rejects_prime :
    Nat.Prime 13 ∧ 2 ≤ 5 ∧ 5 < 13 - 2 ∧
    powMod 5 3 13 = 8 ∧ powMod 8 2 13 = 13 - 1 ∧
    miller_rabin 13 [5] = false := by
  refine ⟨by decide, by decide, by decide, by decide, by decide, by decide⟩

/-- C6 (counterexample): with bit length 4 and first draw `r = 1`
(`r < 2^3`, as `gen_biguint(3)` produces), `generate` returns
`(1 << 1) ^ 1 = 3`, which is prime but has only two bits:
`2^(4-1) ≤ 3` fails, so the leading bit is not set. -/
theorem c6_generate_counterexample :
    (1 : Nat) < 2 ^ (4 - 1) ∧
    generate 4 [⟨1, 0, []⟩] = some 3 ∧
    ¬(2 ^ (4 - 1) ≤ 3) := by
  refine ⟨by decide, by decide, by decide⟩

/-- C6 (witness for the amended theorem): the value 3 returned by
`generate 4` on the tape with draw `r = 1` is odd and below `2^4`. -/
theorem c6_generate_witness :
    (3 % 2 = 1 ∧ 3 < 2 ^ 4) ∧ generate 4 [⟨1, 0, []⟩] = some 3 :=
  ⟨c6_generate_shape_amended 4 (by decide) [⟨1, 0, []⟩] (by decide) 3 (by decide),
   by decide⟩

/-- C7 (counterexample): the pair `(a, m) = (1, 1)` satisfies `m > 0`
and `gcd(a, m) = 1`, but `modular_inverse 1 1 = 1`, and neither
`(1 * 1) mod 1 = 1` nor `1 < 1` holds. -/
theorem c7_modular_inverse_counterexample :
    0 < 1 ∧ Nat.gcd 1 1 = 1 ∧ modular_inverse 1 1 = 1 ∧
    ¬((1 * modular_inverse 1 1) % 1 = 1 ∧ modular_inverse 1 1 < 1) := by
  refine ⟨by decide, by decide, by decide, by decide⟩

/-- C7 (witness for the amended theorem): at `(a, m) = (3, 11)` the
result is an inverse, lies below 11, and equals 4 exactly. -/
theorem c7_modular_inverse_witness :
    ((3 * modular_inverse 3 11) % 11 = 1 ∧ modular_inverse 3 11 < 11) ∧
    modular_inverse 3 11 = 4 :=
  ⟨c7_modular_inverse_amended 3 11 (by decide) (by decide), by decide⟩

/-- C8 (counterexample): for the non-coprime pair `(a, m) = (2, 4)` the
function does not fail — there is no `NotInvertible` (or any other)
error path in the source — it returns the value 1. -/
theorem c8_modular_inverse_counterexample :
    Nat.gcd 2 4 ≠ 1 ∧ modular_inverse 2 4 = 1 := by
  refine ⟨by decide, by decide⟩

/-- C8 (witness for the amended theorem): at `(a, m) = (2, 4)` the
returned value satisfies `(2 * x) mod 4 = gcd(2, 4) mod 4 = 2`. -/
theorem c8_modular_inverse_totality_witness :
    (1 : Nat) ≤ 4 ∧ (2 * modular_inverse 2 4) % 4 = Nat.gcd 2 4 % 4 :=
  ⟨by decide, c8_modular_inverse_total_amended 2 4 (by decide)⟩

/-- C9: the claim states that `update_blinding`, entered with `px = x`
and non-trivial blinding values, replaces `(v_i, v_f)` by their squares
mod `p`.  It does not: the code computes `v_i' = v_i^{v_i} mod p` and
`v_f' = (v_i')^{v_f} mod p`.  With `p = 7`, `x = px = 3`, `v_i = 3`,
`v_f = 5` the code produces `(6, 6)` where squaring would give
`(3² mod 7, 5² mod 7) = (2, 4)`. -/
theorem c9_update_blinding_not_squares :
    update_blinding 7 3 3 3 5 (fun _ => 0) = (3, 6, 6) ∧
    (3 * 3 % 7, 5 * 5 % 7) = ((2 : Nat), (4 : Nat)) ∧
    update_blinding 7 3 3 3 5 (fun _ => 0) ≠ (3, 3 * 3 % 7, 5 * 5 % 7) := by
  refine ⟨by decide, by decide, by decide⟩

/-- C10 (witness): on the valid key `rsaKey55` (`p = 11`, `q = 5`,
`d = 27`, `dp = 7`, `dq = 3`) with blinding draws `r = r' = 1` and input
2, the private operation succeeds with output 18 and leaves the key
state `rsaKey55After`, whose `dp = 17` no longer matches
`d mod (p-1) = 7`; `check_private_key` rejects it, though it accepted
the original key. -/
theorem c10_private_op_clobbers_dp_witness :
    rsaKey55After.dp = (rsaKey55.p - 1) * rsaRand55.rA + rsaKey55.dp ∧
    rsaKey55After.dq = (rsaKey55.q - 1) * rsaRand55.rB + rsaKey55.dq ∧
    rsaKey55After.dp ≠ rsaKey55After.d % (rsaKey55After.p - 1) ∧
    check_private_key rsaKey55After = false :=
  c10_private_op_clobbers_dp rsaKey55 2 rsaRand55 18 rsaKey55After
    (by decide) (by decide) (by decide) (by decide) (by decide)

end Cryptofun
